import Mathlib

/-!
# Verification of the `structures` bitarray library

The repository ships the public header `src/source/bitarray/bitarray.h`
(declarations, error contracts and doc comments) but not the corresponding
implementation file, so the operation bodies below are modelled from the
specification (`spec.md` §3–§4): bits are packed LSB-first into byte-sized
buckets, `buckets = ceil(size / 8)`, and every padding bit (position `≥ size`
inside the allocated buckets) is kept at 0 by every operation.

Bytes are modelled as `Nat` values `< 256`; bit extraction is `Nat.testBit`.
-/

namespace Structures

/-- Modelled from the spec: the struct `_BitArray` behind `bitarray_t` is not
in the sources; per spec §3 it owns a logical bit count `size` and a byte
buffer `data` of `buckets` bytes, bit `i` living in byte `i / 8` at bit
position `i % 8` (LSB-first convention). Bytes are `Nat` values `< 256`. -/
structure bitarray_t where
  size : Nat
  data : List Nat
  deriving Repr, DecidableEq

/-- Modelled from the spec: number of byte buckets backing `size` logical
bits, `ceil(size / 8)`, which on naturals is `(size + 7) / 8`. -/
def bucketsOf (size : Nat) : Nat := (size + 7) / 8

/-- Byte at bucket index `k`; reads as 0 beyond the buffer. -/
def byteGet (b : bitarray_t) (k : Nat) : Nat := b.data.getD k 0

/-- Raw physical bit `i` of the backing buffer (padding included). -/
def rawBit (b : bitarray_t) (i : Nat) : Bool :=
  Nat.testBit (byteGet b (i / 8)) (i % 8)

/-- Modelled from the spec: the mask of valid bit positions inside bucket
`k` of a bitarray of logical size `size`: `0xFF` for a full bucket, and
only the low `size - 8k` bits for the final partial bucket. -/
def maskOf (size k : Nat) : Nat := 2 ^ (min 8 (size - 8 * k)) - 1

/-- Modelled from the spec: `bitarray_construct(size)` fails with `EINVAL`
on `size = 0` (returning `NULL`, here `none`) and otherwise allocates a
zero-initialized buffer of `ceil(size / 8)` buckets. -/
def bitarray_construct (size : Nat) : Option bitarray_t :=
  if size = 0 then none else some ⟨size, List.replicate (bucketsOf size) 0⟩

/-- `bitarray_size` returns the stored logical size. -/
def bitarray_size (b : bitarray_t) : Nat := b.size

/-- `bitarray_buckets` returns the number of backing byte buckets. -/
def bitarray_buckets (b : bitarray_t) : Nat := b.data.length

/-- Modelled from the spec: `bitarray_copy` deep-copies the buffer, yielding
an independent bitarray with identical size and contents. -/
def bitarray_copy (b : bitarray_t) : bitarray_t := ⟨b.size, b.data⟩

/-- Modelled from the spec: `bitarray_test(b, i)` reads logical bit `i`;
out-of-range indices fail with `EINVAL` returning the `false` sentinel. -/
def bitarray_test (b : bitarray_t) (i : Nat) : Bool :=
  if i < b.size then rawBit b i else false

/-- Modelled from the spec: `bitarray_set(b, i)` sets bit `i` to 1 when
`i < size` and reports success; out of range it fails (`EINVAL`), returns
`false` and leaves the bitarray unchanged. -/
def bitarray_set (b : bitarray_t) (i : Nat) : bitarray_t × Bool :=
  if i < b.size then
    (⟨b.size, b.data.set (i / 8) (byteGet b (i / 8) ||| 2 ^ (i % 8))⟩, true)
  else (b, false)

/-- Modelled from the spec: `bitarray_reset(b, i)` clears bit `i` when
`i < size`; out of range it fails, returns `false`, bitarray unchanged. -/
def bitarray_reset (b : bitarray_t) (i : Nat) : bitarray_t × Bool :=
  if i < b.size then
    (⟨b.size, b.data.set (i / 8) (byteGet b (i / 8) &&& (255 ^^^ 2 ^ (i % 8)))⟩, true)
  else (b, false)

/-- Modelled from the spec: `bitarray_flip(b, i)` toggles bit `i` when
`i < size`; out of range it fails, returns `false`, bitarray unchanged. -/
def bitarray_flip (b : bitarray_t) (i : Nat) : bitarray_t × Bool :=
  if i < b.size then
    (⟨b.size, b.data.set (i / 8) (byteGet b (i / 8) ^^^ 2 ^ (i % 8))⟩, true)
  else (b, false)

/-- Modelled from the spec: `bitarray_fill` sets every logical bit to 1
while keeping the padding bits of the final bucket at 0, by writing the
valid-position mask into each bucket. -/
def bitarray_fill (b : bitarray_t) : bitarray_t :=
  ⟨b.size, (List.range b.data.length).map (fun k => maskOf b.size k)⟩

/-- Modelled from the spec: `bitarray_clear` zeroes every bucket. -/
def bitarray_clear (b : bitarray_t) : bitarray_t :=
  ⟨b.size, List.replicate b.data.length 0⟩

/-- Population count of one byte: the number of set bits among positions
`0..7`. -/
def popcount8 (x : Nat) : Nat := (List.range 8).countP (fun j => Nat.testBit x j)

/-- Modelled from the spec: `bitarray_count` sums the per-byte population
counts over all buckets. -/
def bitarray_count (b : bitarray_t) : Nat := (b.data.map popcount8).sum

/-- Modelled from the spec: `bitarray_any` is true iff some bucket byte is
nonzero. -/
def bitarray_any (b : bitarray_t) : Bool := b.data.any (fun x => x != 0)

/-- Modelled from the spec: `bitarray_none` is the negation of
`bitarray_any`. -/
def bitarray_none (b : bitarray_t) : Bool := !bitarray_any b

/-- Modelled from the spec: `bitarray_all` compares every bucket byte to the
mask of its valid positions (`0xFF` for full buckets, the partial mask for
the final bucket). -/
def bitarray_all (b : bitarray_t) : Bool :=
  (List.range b.data.length).all (fun k => byteGet b k == maskOf b.size k)

/-- Modelled from the spec: shared shape of `and` / `or` / `xor`: the result
size is the larger of the operand sizes, bucket `k` combines the operand
bytes (a missing byte of the shorter operand reads as 0) with `f`, and the
result's padding bits are forced to 0 by masking with the valid-position
mask. -/
def combineBytes (f : Nat → Nat → Nat) (a b : bitarray_t) : bitarray_t :=
  ⟨max a.size b.size,
   (List.range (bucketsOf (max a.size b.size))).map
     (fun k => f (byteGet a k) (byteGet b k) &&& maskOf (max a.size b.size) k)⟩

/-- Modelled from the spec: `bitarray_and`. -/
def bitarray_and (a b : bitarray_t) : bitarray_t := combineBytes (· &&& ·) a b

/-- Modelled from the spec: `bitarray_or`. -/
def bitarray_or (a b : bitarray_t) : bitarray_t := combineBytes (· ||| ·) a b

/-- Modelled from the spec: `bitarray_xor`. -/
def bitarray_xor (a b : bitarray_t) : bitarray_t := combineBytes (· ^^^ ·) a b

/-- Modelled from the spec: `bitarray_not` inverts every logical bit (same
size) and forces the padding bits back to 0 after inversion. -/
def bitarray_not (b : bitarray_t) : bitarray_t :=
  ⟨b.size, (List.range b.data.length).map (fun k => (255 ^^^ byteGet b k) &&& maskOf b.size k)⟩

/-- The padding invariant of spec §3: every physical bit position `≥ size`
but `< 8 * buckets` reads as 0. -/
def Padded (b : bitarray_t) : Prop :=
  ∀ i, i < 8 * b.data.length → b.size ≤ i → rawBit b i = false

/-- Well-formed bitarray states: positive size, `buckets = ceil(size / 8)`
bytes in the buffer, each byte `< 256`, and the padding invariant. -/
def WF (b : bitarray_t) : Prop :=
  0 < b.size ∧ b.data.length = bucketsOf b.size ∧ (∀ x ∈ b.data, x < 256) ∧ Padded b

instance (b : bitarray_t) : Decidable (Padded b) := by
  unfold Padded; infer_instance

instance (b : bitarray_t) : Decidable (WF b) := by
  unfold WF; infer_instance

/-! ## Basic byte and bit lemmas -/

theorem size_le_8mul_bucketsOf (n : Nat) : n ≤ 8 * bucketsOf n := by
  unfold bucketsOf; omega

theorem byteGet_lt_256 (b : bitarray_t) (hb : ∀ x ∈ b.data, x < 256) (k : Nat) :
    byteGet b k < 256 := by
  unfold byteGet
  rcases Nat.lt_or_ge k b.data.length with h | h
  · rw [List.getD_eq_getElem?_getD, List.getElem?_eq_getElem h]
    exact hb _ (List.getElem_mem h)
  · simp [List.getD_eq_getElem?_getD, List.getElem?_eq_none h]

theorem byteGet_of_ge (b : bitarray_t) (k : Nat) (h : b.data.length ≤ k) :
    byteGet b k = 0 := by
  simp [byteGet, List.getD_eq_getElem?_getD, List.getElem?_eq_none h]

theorem rawBit_eq_false_of_ge (b : bitarray_t) (hWF : WF b) (i : Nat) (h : b.size ≤ i) :
    rawBit b i = false := by
  obtain ⟨-, -, -, hpad⟩ := hWF
  rcases Nat.lt_or_ge i (8 * b.data.length) with hi | hi
  · exact hpad i hi h
  · have : b.data.length ≤ i / 8 := by omega
    simp [rawBit, byteGet_of_ge b _ this]

theorem test_eq_rawBit (b : bitarray_t) (hWF : WF b) (i : Nat) :
    bitarray_test b i = rawBit b i := by
  unfold bitarray_test
  rcases Nat.lt_or_ge i b.size with h | h
  · simp [h]
  · simp [Nat.not_lt.mpr h, rawBit_eq_false_of_ge b hWF i h]

theorem testBit_maskOf (size k j : Nat) :
    (maskOf size k).testBit j = decide (j < min 8 (size - 8 * k)) := by
  simp [maskOf, Nat.testBit_two_pow_sub_one]

theorem maskOf_lt_256 (size k : Nat) : maskOf size k < 256 := by
  have h : 2 ^ min 8 (size - 8 * k) ≤ 2 ^ 8 :=
    Nat.pow_le_pow_right (by norm_num) (Nat.min_le_left _ _)
  unfold maskOf; omega

theorem getD_map_range_lt (g : Nat → Nat) (m k : Nat) (h : k < m) :
    ((List.range m).map g).getD k 0 = g k := by
  simp [List.getD_eq_getElem?_getD, List.getElem?_range h]

theorem getD_map_range_ge (g : Nat → Nat) (m k : Nat) (h : m ≤ k) :
    ((List.range m).map g).getD k 0 = 0 := by
  have : ((List.range m).map g).length ≤ k := by simpa using h
  simp [List.getD_eq_getElem?_getD, List.getElem?_eq_none this]

theorem div8_lt_bucketsOf (i n : Nat) (h : i < n) : i / 8 < bucketsOf n := by
  unfold bucketsOf; omega

theorem mod8_lt_min (i n : Nat) (h : i < n) : i % 8 < min 8 (n - 8 * (i / 8)) := by
  omega

theorem mod8_not_lt_min (i n : Nat) (h : n ≤ i) : ¬ i % 8 < min 8 (n - 8 * (i / 8)) := by
  omega

/-! ## Raw-bit characterizations of the operations -/

theorem rawBit_combineBytes_lt (f : Nat → Nat → Nat) (a b : bitarray_t) (i : Nat)
    (h : i < max a.size b.size) :
    rawBit (combineBytes f a b) i =
      (f (byteGet a (i / 8)) (byteGet b (i / 8))).testBit (i % 8) := by
  unfold rawBit combineBytes
  simp only [byteGet, getD_map_range_lt _ _ _ (div8_lt_bucketsOf i _ h),
    Nat.testBit_and, testBit_maskOf]
  simp [mod8_lt_min i _ h]

theorem rawBit_combineBytes_ge (f : Nat → Nat → Nat) (a b : bitarray_t) (i : Nat)
    (h : max a.size b.size ≤ i) :
    rawBit (combineBytes f a b) i = false := by
  unfold rawBit combineBytes
  rcases Nat.lt_or_ge (i / 8) (bucketsOf (max a.size b.size)) with hk | hk
  · simp only [byteGet, getD_map_range_lt _ _ _ hk, Nat.testBit_and, testBit_maskOf]
    simp [mod8_not_lt_min i _ h]
  · simp only [byteGet]
    rw [getD_map_range_ge _ _ _ hk]
    simp

theorem rawBit_bitarray_not_lt (b : bitarray_t) (hlen : b.data.length = bucketsOf b.size)
    (i : Nat) (h : i < b.size) :
    rawBit (bitarray_not b) i = !rawBit b i := by
  unfold rawBit bitarray_not
  have hk : i / 8 < b.data.length := hlen ▸ div8_lt_bucketsOf i _ h
  simp only [byteGet, getD_map_range_lt _ _ _ hk, Nat.testBit_and, Nat.testBit_xor,
    testBit_maskOf]
  have h255 : Nat.testBit 255 (i % 8) = true := by
    have : (255 : Nat) = 2 ^ 8 - 1 := by norm_num
    rw [this, Nat.testBit_two_pow_sub_one]
    simp [Nat.mod_lt i (by norm_num : 0 < 8)]
  simp [h255, mod8_lt_min i _ h]

theorem rawBit_bitarray_not_ge (b : bitarray_t) (i : Nat) (h : b.size ≤ i) :
    rawBit (bitarray_not b) i = false := by
  unfold rawBit bitarray_not
  rcases Nat.lt_or_ge (i / 8) b.data.length with hk | hk
  · simp only [byteGet, getD_map_range_lt _ _ _ hk, Nat.testBit_and, testBit_maskOf]
    simp [mod8_not_lt_min i _ h]
  · simp only [byteGet]
    rw [getD_map_range_ge _ _ _ hk]
    simp

theorem rawBit_bitarray_fill (b : bitarray_t) (hlen : b.data.length = bucketsOf b.size)
    (i : Nat) :
    rawBit (bitarray_fill b) i = decide (i < b.size) := by
  unfold rawBit bitarray_fill
  rcases Nat.lt_or_ge i b.size with h | h
  · have hk : i / 8 < b.data.length := hlen ▸ div8_lt_bucketsOf i _ h
    simp only [byteGet, getD_map_range_lt _ _ _ hk, testBit_maskOf]
    simp [mod8_lt_min i _ h, h]
  · rcases Nat.lt_or_ge (i / 8) b.data.length with hk | hk
    · simp only [byteGet, getD_map_range_lt _ _ _ hk, testBit_maskOf]
      simp [mod8_not_lt_min i _ h, Nat.not_lt.mpr h]
    · simp only [byteGet]
      rw [getD_map_range_ge _ _ _ hk]
      simp [Nat.not_lt.mpr h]

theorem testBit_255 (j : Nat) (h : j < 8) : Nat.testBit 255 j = true := by
  have h255 : (255 : Nat) = 2 ^ 8 - 1 := by norm_num
  rw [h255, Nat.testBit_two_pow_sub_one]
  simp [h]

theorem rawBit_update (b : bitarray_t) (k y : Nat) (hk : k < b.data.length) (p : Nat) :
    rawBit ⟨b.size, b.data.set k y⟩ p =
      if p / 8 = k then y.testBit (p % 8) else rawBit b p := by
  unfold rawBit byteGet
  rcases eq_or_ne (p / 8) k with he | hne
  · simp [he, List.getD_eq_getElem?_getD, List.getElem?_set_self hk]
  · simp [hne, List.getD_eq_getElem?_getD, List.getElem?_set_ne (Ne.symm hne)]

theorem fst_bitarray_set (b : bitarray_t) (i : Nat) (hi : i < b.size) :
    (bitarray_set b i).1 =
      ⟨b.size, b.data.set (i / 8) (byteGet b (i / 8) ||| 2 ^ (i % 8))⟩ := by
  simp [bitarray_set, hi]

theorem fst_bitarray_reset (b : bitarray_t) (i : Nat) (hi : i < b.size) :
    (bitarray_reset b i).1 =
      ⟨b.size, b.data.set (i / 8) (byteGet b (i / 8) &&& (255 ^^^ 2 ^ (i % 8)))⟩ := by
  simp [bitarray_reset, hi]

theorem fst_bitarray_flip (b : bitarray_t) (i : Nat) (hi : i < b.size) :
    (bitarray_flip b i).1 =
      ⟨b.size, b.data.set (i / 8) (byteGet b (i / 8) ^^^ 2 ^ (i % 8))⟩ := by
  simp [bitarray_flip, hi]

theorem rawBit_bitarray_set (b : bitarray_t) (i : Nat)
    (hlen : b.data.length = bucketsOf b.size) (hi : i < b.size) (p : Nat) :
    rawBit (bitarray_set b i).1 p = (rawBit b p || decide (p = i)) := by
  have hk : i / 8 < b.data.length := hlen ▸ div8_lt_bucketsOf i _ hi
  rw [fst_bitarray_set b i hi, rawBit_update b _ _ hk p]
  rcases eq_or_ne (p / 8) (i / 8) with he | hne
  · rw [if_pos he]
    rcases eq_or_ne p i with rfl | hpi
    · simp [Nat.testBit_or, Nat.testBit_two_pow_self]
    · have hm : i % 8 ≠ p % 8 := by omega
      simp [Nat.testBit_or, Nat.testBit_two_pow_of_ne hm, rawBit, byteGet, he, hpi]
  · rw [if_neg hne]
    have hpi : p ≠ i := by omega
    simp [hpi]

theorem rawBit_bitarray_reset (b : bitarray_t) (i : Nat)
    (hlen : b.data.length = bucketsOf b.size) (hi : i < b.size) (p : Nat) :
    rawBit (bitarray_reset b i).1 p = (rawBit b p && !decide (p = i)) := by
  have hk : i / 8 < b.data.length := hlen ▸ div8_lt_bucketsOf i _ hi
  rw [fst_bitarray_reset b i hi, rawBit_update b _ _ hk p]
  rcases eq_or_ne (p / 8) (i / 8) with he | hne
  · rw [if_pos he]
    have h8 : p % 8 < 8 := Nat.mod_lt p (by norm_num)
    rcases eq_or_ne p i with rfl | hpi
    · simp [Nat.testBit_and, Nat.testBit_xor, testBit_255 _ h8, Nat.testBit_two_pow_self]
    · have hm : i % 8 ≠ p % 8 := by omega
      simp [Nat.testBit_and, Nat.testBit_xor, testBit_255 _ h8,
        Nat.testBit_two_pow_of_ne hm, rawBit, byteGet, he, hpi]
  · rw [if_neg hne]
    have hpi : p ≠ i := by omega
    simp [hpi]

theorem rawBit_bitarray_flip (b : bitarray_t) (i : Nat)
    (hlen : b.data.length = bucketsOf b.size) (hi : i < b.size) (p : Nat) :
    rawBit (bitarray_flip b i).1 p = (rawBit b p ^^ decide (p = i)) := by
  have hk : i / 8 < b.data.length := hlen ▸ div8_lt_bucketsOf i _ hi
  rw [fst_bitarray_flip b i hi, rawBit_update b _ _ hk p]
  rcases eq_or_ne (p / 8) (i / 8) with he | hne
  · rw [if_pos he]
    rcases eq_or_ne p i with rfl | hpi
    · simp [Nat.testBit_xor, Nat.testBit_two_pow_self, rawBit, byteGet]
    · have hm : i % 8 ≠ p % 8 := by omega
      simp [Nat.testBit_xor, Nat.testBit_two_pow_of_ne hm, rawBit, byteGet, he, hpi]
  · rw [if_neg hne]
    have hpi : p ≠ i := by omega
    simp [hpi]

theorem rawBit_bitarray_clear (b : bitarray_t) (i : Nat) :
    rawBit (bitarray_clear b) i = false := by
  unfold rawBit bitarray_clear byteGet
  rcases Nat.lt_or_ge (i / 8) b.data.length with hk | hk
  · simp [List.getD_eq_getElem?_getD, List.getElem?_replicate_of_lt hk]
  · have : (List.replicate b.data.length (0 : Nat)).length ≤ i / 8 := by simpa using hk
    simp [List.getD_eq_getElem?_getD, List.getElem?_eq_none this]

/-! ## Preservation of well-formedness -/

theorem WF_intro (b : bitarray_t) (h1 : 0 < b.size) (h2 : b.data.length = bucketsOf b.size)
    (h3 : ∀ x ∈ b.data, x < 256) (h4 : ∀ p, b.size ≤ p → rawBit b p = false) : WF b :=
  ⟨h1, h2, h3, fun i _ hs => h4 i hs⟩

theorem two_pow_mod8_lt_256 (i : Nat) : 2 ^ (i % 8) < 256 := by
  have h1 : (2 : Nat) ^ (i % 8) ≤ 2 ^ 7 := Nat.pow_le_pow_right (by norm_num) (by omega)
  have h2 : (2 : Nat) ^ 7 = 128 := by norm_num
  omega

theorem lt_256_iff_lt_two_pow_8 (x : Nat) : x < 256 ↔ x < 2 ^ 8 := by norm_num

theorem rawBit_zero_buffer (n m i : Nat) : rawBit ⟨n, List.replicate m 0⟩ i = false := by
  unfold rawBit byteGet
  rcases Nat.lt_or_ge (i / 8) m with hk | hk
  · simp [List.getD_eq_getElem?_getD, List.getElem?_replicate_of_lt hk]
  · have : (List.replicate m (0 : Nat)).length ≤ i / 8 := by simpa using hk
    simp [List.getD_eq_getElem?_getD, List.getElem?_eq_none this]

theorem WF_bitarray_construct (n : Nat) (b : bitarray_t)
    (h : bitarray_construct n = some b) : WF b := by
  unfold bitarray_construct at h
  by_cases hn : n = 0
  · simp [hn] at h
  · simp only [hn, if_neg, ite_false] at h
    obtain rfl := Option.some_injective _ h
    refine WF_intro _ (Nat.pos_of_ne_zero hn) (by simp) ?_ ?_
    · intro x hx
      have := List.eq_of_mem_replicate hx
      omega
    · intro p _
      exact rawBit_zero_buffer n _ p

theorem WF_bitarray_copy (b : bitarray_t) (h : WF b) : WF (bitarray_copy b) := h

theorem WF_bitarray_set (b : bitarray_t) (i : Nat) (h : WF b) : WF (bitarray_set b i).1 := by
  by_cases hi : i < b.size
  · obtain ⟨h1, h2, h3, h4⟩ := h
    rw [fst_bitarray_set b i hi]
    refine WF_intro _ h1 (by simpa using h2) ?_ ?_
    · intro x hx
      rcases List.mem_or_eq_of_mem_set hx with hmem | rfl
      · exact h3 x hmem
      · rw [lt_256_iff_lt_two_pow_8]
        exact Nat.or_lt_two_pow ((lt_256_iff_lt_two_pow_8 _).mp (byteGet_lt_256 b h3 _))
          ((lt_256_iff_lt_two_pow_8 _).mp (two_pow_mod8_lt_256 i))
    · intro p hp
      have hp' : b.size ≤ p := hp
      rw [← fst_bitarray_set b i hi, rawBit_bitarray_set b i h2 hi p]
      have hpi : p ≠ i := by omega
      simp [hpi, rawBit_eq_false_of_ge b ⟨h1, h2, h3, h4⟩ p hp]
  · have he : (bitarray_set b i).1 = b := by simp [bitarray_set, hi]
    rw [he]; exact h

theorem WF_bitarray_reset (b : bitarray_t) (i : Nat) (h : WF b) : WF (bitarray_reset b i).1 := by
  by_cases hi : i < b.size
  · obtain ⟨h1, h2, h3, h4⟩ := h
    rw [fst_bitarray_reset b i hi]
    refine WF_intro _ h1 (by simpa using h2) ?_ ?_
    · intro x hx
      rcases List.mem_or_eq_of_mem_set hx with hmem | rfl
      · exact h3 x hmem
      · have := Nat.and_le_left (n := byteGet b (i / 8)) (m := 255 ^^^ 2 ^ (i % 8))
        have := byteGet_lt_256 b h3 (i / 8)
        omega
    · intro p hp
      rw [← fst_bitarray_reset b i hi, rawBit_bitarray_reset b i h2 hi p]
      simp [rawBit_eq_false_of_ge b ⟨h1, h2, h3, h4⟩ p hp]
  · have he : (bitarray_reset b i).1 = b := by simp [bitarray_reset, hi]
    rw [he]; exact h

theorem WF_bitarray_flip (b : bitarray_t) (i : Nat) (h : WF b) : WF (bitarray_flip b i).1 := by
  by_cases hi : i < b.size
  · obtain ⟨h1, h2, h3, h4⟩ := h
    rw [fst_bitarray_flip b i hi]
    refine WF_intro _ h1 (by simpa using h2) ?_ ?_
    · intro x hx
      rcases List.mem_or_eq_of_mem_set hx with hmem | rfl
      · exact h3 x hmem
      · rw [lt_256_iff_lt_two_pow_8]
        exact Nat.xor_lt_two_pow ((lt_256_iff_lt_two_pow_8 _).mp (byteGet_lt_256 b h3 _))
          ((lt_256_iff_lt_two_pow_8 _).mp (two_pow_mod8_lt_256 i))
    · intro p hp
      have hp' : b.size ≤ p := hp
      rw [← fst_bitarray_flip b i hi, rawBit_bitarray_flip b i h2 hi p]
      have hpi : p ≠ i := by omega
      simp [hpi, rawBit_eq_false_of_ge b ⟨h1, h2, h3, h4⟩ p hp]
  · have he : (bitarray_flip b i).1 = b := by simp [bitarray_flip, hi]
    rw [he]; exact h

theorem WF_bitarray_fill (b : bitarray_t) (h : WF b) : WF (bitarray_fill b) := by
  obtain ⟨h1, h2, h3, h4⟩ := h
  refine WF_intro _ h1 (by simpa [bitarray_fill] using h2) ?_ ?_
  · intro x hx
    simp only [bitarray_fill, List.mem_map] at hx
    obtain ⟨k, -, rfl⟩ := hx
    exact maskOf_lt_256 b.size k
  · intro p hp
    rw [rawBit_bitarray_fill b h2 p]
    simp [bitarray_fill] at hp ⊢
    omega

theorem WF_bitarray_clear (b : bitarray_t) (h : WF b) : WF (bitarray_clear b) := by
  obtain ⟨h1, h2, h3, h4⟩ := h
  refine WF_intro _ h1 (by simpa [bitarray_clear] using h2) ?_ ?_
  · intro x hx
    simp only [bitarray_clear] at hx
    have := List.eq_of_mem_replicate hx
    omega
  · intro p _
    exact rawBit_bitarray_clear b p

theorem WF_bitarray_not (b : bitarray_t) (h : WF b) : WF (bitarray_not b) := by
  obtain ⟨h1, h2, h3, h4⟩ := h
  refine WF_intro _ h1 (by simpa [bitarray_not] using h2) ?_ ?_
  · intro x hx
    simp only [bitarray_not, List.mem_map] at hx
    obtain ⟨k, -, rfl⟩ := hx
    have := Nat.and_le_right (n := 255 ^^^ byteGet b k) (m := maskOf b.size k)
    have := maskOf_lt_256 b.size k
    omega
  · intro p hp
    exact rawBit_bitarray_not_ge b p hp

theorem WF_combineBytes (f : Nat → Nat → Nat) (a b : bitarray_t)
    (ha : WF a) : WF (combineBytes f a b) := by
  refine WF_intro _ ?_ (by simp [combineBytes]) ?_ ?_
  · exact Nat.lt_of_lt_of_le ha.1 (Nat.le_max_left _ _)
  · intro x hx
    simp only [combineBytes, List.mem_map] at hx
    obtain ⟨k, -, rfl⟩ := hx
    have := Nat.and_le_right (n := f (byteGet a k) (byteGet b k))
      (m := maskOf (max a.size b.size) k)
    have := maskOf_lt_256 (max a.size b.size) k
    omega
  · intro p hp
    exact rawBit_combineBytes_ge f a b p hp

theorem WF_bitarray_and (a b : bitarray_t) (ha : WF a) : WF (bitarray_and a b) :=
  WF_combineBytes _ a b ha

theorem WF_bitarray_or (a b : bitarray_t) (ha : WF a) : WF (bitarray_or a b) :=
  WF_combineBytes _ a b ha

theorem WF_bitarray_xor (a b : bitarray_t) (ha : WF a) : WF (bitarray_xor a b) :=
  WF_combineBytes _ a b ha

/-! ## Counting: the per-byte population-count sum equals the logical count -/

theorem countP_range_eq_sum (p : Nat → Bool) (n : Nat) :
    (List.range n).countP p = ∑ i ∈ Finset.range n, (p i).toNat := by
  induction n with
  | zero => simp
  | succ n ih =>
    rw [List.range_succ, List.countP_append, ih, Finset.sum_range_succ]
    cases hp : p n <;> simp [hp, List.countP_cons]

theorem popcount8_eq_sum (x : Nat) :
    popcount8 x = ∑ j ∈ Finset.range 8, (Nat.testBit x j).toNat :=
  countP_range_eq_sum _ 8

theorem sum_list_map_eq (g : Nat → Nat) (l : List Nat) :
    (l.map g).sum = ∑ k ∈ Finset.range l.length, g (l.getD k 0) := by
  induction l with
  | nil => simp
  | cons x xs ih =>
    simp only [List.map_cons, List.sum_cons, List.length_cons, ih]
    rw [Finset.sum_range_succ']
    simp [Nat.add_comm]

theorem sum_range_add_eight (f : Nat → Nat) (n : Nat) :
    ∑ i ∈ Finset.range (n + 8), f i
      = (∑ i ∈ Finset.range n, f i) + ∑ j ∈ Finset.range 8, f (n + j) := by
  simp [Finset.sum_range_succ]
  ring

theorem sum_range_eight_mul (f : Nat → Nat) (m : Nat) :
    ∑ i ∈ Finset.range (8 * m), f i
      = ∑ k ∈ Finset.range m, ∑ j ∈ Finset.range 8, f (8 * k + j) := by
  induction m with
  | zero => simp
  | succ m ih =>
    rw [show 8 * (m + 1) = 8 * m + 8 by ring, sum_range_add_eight, ih,
      Finset.sum_range_succ (fun k => ∑ j ∈ Finset.range 8, f (8 * k + j)) m]

theorem rawBit_bucket_decompose (b : bitarray_t) (k j : Nat) (hj : j < 8) :
    rawBit b (8 * k + j) = (byteGet b k).testBit j := by
  unfold rawBit
  have hdiv : (8 * k + j) / 8 = k := by omega
  have hmod : (8 * k + j) % 8 = j := by omega
  rw [hdiv, hmod]

theorem count_spec (b : bitarray_t) (h : WF b) :
    bitarray_count b = (List.range b.size).countP (fun i => bitarray_test b i) := by
  obtain ⟨h1, h2, h3, h4⟩ := h
  have hsize : b.size ≤ 8 * b.data.length := by
    rw [h2]; exact size_le_8mul_bucketsOf b.size
  rw [countP_range_eq_sum]
  have hTest : ∀ i ∈ Finset.range b.size,
      (bitarray_test b i).toNat = (rawBit b i).toNat := by
    intro i hi
    rw [Finset.mem_range] at hi
    simp [bitarray_test, hi]
  rw [Finset.sum_congr rfl hTest]
  have hsplit : (∑ i ∈ Finset.range b.size, (rawBit b i).toNat)
      = ∑ i ∈ Finset.range (8 * b.data.length), (rawBit b i).toNat := by
    rw [Finset.range_eq_Ico,
      ← Finset.sum_Ico_consecutive _ (Nat.zero_le b.size) hsize]
    have hzero : (∑ i ∈ Finset.Ico b.size (8 * b.data.length), (rawBit b i).toNat) = 0 := by
      refine Finset.sum_eq_zero ?_
      intro i hi
      rw [Finset.mem_Ico] at hi
      rw [rawBit_eq_false_of_ge b ⟨h1, h2, h3, h4⟩ i hi.1]
      rfl
    omega
  rw [hsplit, sum_range_eight_mul]
  unfold bitarray_count
  rw [sum_list_map_eq]
  refine Finset.sum_congr rfl ?_
  intro k _
  rw [popcount8_eq_sum]
  refine Finset.sum_congr rfl ?_
  intro j hj
  rw [Finset.mem_range] at hj
  rw [rawBit_bucket_decompose b k j hj]
  rfl

/-! ## Logical-bit characterizations of the boolean algebra -/

theorem bitarray_test_and (a b : bitarray_t) (ha : WF a) (hb : WF b) (i : Nat) :
    bitarray_test (bitarray_and a b) i = (bitarray_test a i && bitarray_test b i) := by
  rw [test_eq_rawBit _ (WF_bitarray_and a b ha) i, test_eq_rawBit a ha i,
    test_eq_rawBit b hb i]
  rcases Nat.lt_or_ge i (max a.size b.size) with h | h
  · rw [show bitarray_and a b = combineBytes (· &&& ·) a b from rfl,
      rawBit_combineBytes_lt _ _ _ _ h, Nat.testBit_and]
    rfl
  · rw [show bitarray_and a b = combineBytes (· &&& ·) a b from rfl,
      rawBit_combineBytes_ge _ _ _ _ h,
      rawBit_eq_false_of_ge a ha i (Nat.le_trans (Nat.le_max_left _ _) h)]
    rfl

theorem bitarray_test_or (a b : bitarray_t) (ha : WF a) (hb : WF b) (i : Nat) :
    bitarray_test (bitarray_or a b) i = (bitarray_test a i || bitarray_test b i) := by
  rw [test_eq_rawBit _ (WF_bitarray_or a b ha) i, test_eq_rawBit a ha i,
    test_eq_rawBit b hb i]
  rcases Nat.lt_or_ge i (max a.size b.size) with h | h
  · rw [show bitarray_or a b = combineBytes (· ||| ·) a b from rfl,
      rawBit_combineBytes_lt _ _ _ _ h, Nat.testBit_or]
    rfl
  · rw [show bitarray_or a b = combineBytes (· ||| ·) a b from rfl,
      rawBit_combineBytes_ge _ _ _ _ h,
      rawBit_eq_false_of_ge a ha i (Nat.le_trans (Nat.le_max_left _ _) h),
      rawBit_eq_false_of_ge b hb i (Nat.le_trans (Nat.le_max_right _ _) h)]
    rfl

theorem bitarray_test_xor (a b : bitarray_t) (ha : WF a) (hb : WF b) (i : Nat) :
    bitarray_test (bitarray_xor a b) i = (bitarray_test a i ^^ bitarray_test b i) := by
  rw [test_eq_rawBit _ (WF_bitarray_xor a b ha) i, test_eq_rawBit a ha i,
    test_eq_rawBit b hb i]
  rcases Nat.lt_or_ge i (max a.size b.size) with h | h
  · rw [show bitarray_xor a b = combineBytes (· ^^^ ·) a b from rfl,
      rawBit_combineBytes_lt _ _ _ _ h, Nat.testBit_xor]
    rfl
  · rw [show bitarray_xor a b = combineBytes (· ^^^ ·) a b from rfl,
      rawBit_combineBytes_ge _ _ _ _ h,
      rawBit_eq_false_of_ge a ha i (Nat.le_trans (Nat.le_max_left _ _) h),
      rawBit_eq_false_of_ge b hb i (Nat.le_trans (Nat.le_max_right _ _) h)]
    rfl

theorem bitarray_test_not (b : bitarray_t) (hb : WF b) (i : Nat) :
    bitarray_test (bitarray_not b) i = (decide (i < b.size) && !bitarray_test b i) := by
  rcases Nat.lt_or_ge i b.size with h | h
  · have hsize : (bitarray_not b).size = b.size := rfl
    rw [show bitarray_test (bitarray_not b) i = rawBit (bitarray_not b) i from by
      simp [bitarray_test, hsize, h]]
    rw [rawBit_bitarray_not_lt b hb.2.1 i h]
    simp [bitarray_test, h]
  · have hsize : (bitarray_not b).size = b.size := rfl
    simp [bitarray_test, hsize, Nat.not_lt.mpr h]

/-! ## Characterizations of the aggregate queries -/

theorem testBit_false_of_ge_8 (x j : Nat) (hx : x < 256) (hj : 8 ≤ j) :
    x.testBit j = false := by
  refine Nat.testBit_lt_two_pow (Nat.lt_of_lt_of_le ?_ (Nat.pow_le_pow_right (by norm_num) hj))
  omega

theorem any_spec (b : bitarray_t) (h : WF b) :
    bitarray_any b = true ↔ ∃ i, i < b.size ∧ bitarray_test b i = true := by
  obtain ⟨h1, h2, h3, h4⟩ := h
  unfold bitarray_any
  rw [List.any_eq_true]
  constructor
  · rintro ⟨x, hmem, hx⟩
    rw [List.mem_iff_getElem] at hmem
    obtain ⟨k, hk, rfl⟩ := hmem
    have hxz : b.data[k] ≠ 0 := by simpa using hx
    obtain ⟨j, hj⟩ := Nat.ne_zero_implies_bit_true hxz
    have hbyte : byteGet b k = b.data[k] := by
      simp [byteGet, List.getD_eq_getElem?_getD, List.getElem?_eq_getElem hk]
    have hj8 : j < 8 := by
      by_contra hj8
      rw [testBit_false_of_ge_8 _ j (h3 _ (List.getElem_mem hk)) (by omega)] at hj
      exact Bool.false_ne_true hj
    have hraw : rawBit b (8 * k + j) = true := by
      rw [rawBit_bucket_decompose b k j hj8, hbyte]
      exact hj
    have hlt : 8 * k + j < b.size := by
      by_contra hge
      rw [rawBit_eq_false_of_ge b ⟨h1, h2, h3, h4⟩ _ (by omega)] at hraw
      exact Bool.false_ne_true hraw
    exact ⟨8 * k + j, hlt, by simp [bitarray_test, hlt, hraw]⟩
  · rintro ⟨i, hi, ht⟩
    have hraw : rawBit b i = true := by simpa [bitarray_test, hi] using ht
    have hk : i / 8 < b.data.length := by
      rw [h2]; exact div8_lt_bucketsOf i _ hi
    refine ⟨b.data[i / 8], List.getElem_mem hk, ?_⟩
    have hbyte : byteGet b (i / 8) = b.data[i / 8] := by
      simp [byteGet, List.getD_eq_getElem?_getD, List.getElem?_eq_getElem hk]
    have : b.data[i / 8] ≠ 0 := by
      intro hz
      rw [rawBit, hbyte, hz, Nat.zero_testBit] at hraw
      exact Bool.false_ne_true hraw
    simpa using this

theorem all_spec (b : bitarray_t) (h : WF b) :
    bitarray_all b = true ↔ ∀ i, i < b.size → bitarray_test b i = true := by
  obtain ⟨h1, h2, h3, h4⟩ := h
  unfold bitarray_all
  rw [List.all_eq_true]
  constructor
  · intro hall i hi
    have hk : i / 8 < b.data.length := by
      rw [h2]; exact div8_lt_bucketsOf i _ hi
    have hbyte : byteGet b (i / 8) = maskOf b.size (i / 8) := by
      have := hall (i / 8) (List.mem_range.mpr hk)
      simpa using this
    have : rawBit b i = true := by
      rw [rawBit, hbyte, testBit_maskOf]
      simp [mod8_lt_min i _ hi]
    simp [bitarray_test, hi, this]
  · intro hall k hkmem
    rw [List.mem_range] at hkmem
    have hbyte : byteGet b k < 256 := byteGet_lt_256 b h3 k
    have heq : byteGet b k = maskOf b.size k := by
      refine Nat.eq_of_testBit_eq ?_
      intro j
      rw [testBit_maskOf]
      rcases Nat.lt_or_ge j 8 with hj8 | hj8
      · rcases Nat.lt_or_ge (8 * k + j) b.size with hp | hp
        · have ht := hall (8 * k + j) hp
          have hraw : rawBit b (8 * k + j) = true := by
            simpa [bitarray_test, hp] using ht
          rw [rawBit_bucket_decompose b k j hj8] at hraw
          rw [hraw]
          symm
          simp only [decide_eq_true_eq]
          omega
        · have hraw : rawBit b (8 * k + j) = false :=
            rawBit_eq_false_of_ge b ⟨h1, h2, h3, h4⟩ _ hp
          rw [rawBit_bucket_decompose b k j hj8] at hraw
          rw [hraw]
          symm
          simp only [decide_eq_false_iff_not]
          omega
      · rw [testBit_false_of_ge_8 _ j hbyte hj8]
        symm
        simp only [decide_eq_false_iff_not]
        omega
    simp [heq]

/-! ## Reachable states -/

/-- The bitarray states reachable through the public interface: produced by
`bitarray_construct` and closed under copy, the single-bit mutations, fill,
clear and the boolean algebra operations. -/
inductive Reachable : bitarray_t → Prop
  | construct (n : Nat) (b : bitarray_t) :
      bitarray_construct n = some b → Reachable b
  | copy (b : bitarray_t) : Reachable b → Reachable (bitarray_copy b)
  | set (b : bitarray_t) (i : Nat) : Reachable b → Reachable (bitarray_set b i).1
  | reset (b : bitarray_t) (i : Nat) : Reachable b → Reachable (bitarray_reset b i).1
  | flip (b : bitarray_t) (i : Nat) : Reachable b → Reachable (bitarray_flip b i).1
  | fill (b : bitarray_t) : Reachable b → Reachable (bitarray_fill b)
  | clear (b : bitarray_t) : Reachable b → Reachable (bitarray_clear b)
  | and_op (a b : bitarray_t) : Reachable a → Reachable b → Reachable (bitarray_and a b)
  | or_op (a b : bitarray_t) : Reachable a → Reachable b → Reachable (bitarray_or a b)
  | xor_op (a b : bitarray_t) : Reachable a → Reachable b → Reachable (bitarray_xor a b)
  | not_op (b : bitarray_t) : Reachable b → Reachable (bitarray_not b)

theorem WF_of_reachable (b : bitarray_t) (h : Reachable b) : WF b := by
  induction h with
  | construct n b hc => exact WF_bitarray_construct n b hc
  | copy b _ ih => exact WF_bitarray_copy b ih
  | set b i _ ih => exact WF_bitarray_set b i ih
  | reset b i _ ih => exact WF_bitarray_reset b i ih
  | flip b i _ ih => exact WF_bitarray_flip b i ih
  | fill b _ ih => exact WF_bitarray_fill b ih
  | clear b _ ih => exact WF_bitarray_clear b ih
  | and_op a b _ _ iha _ => exact WF_bitarray_and a b iha
  | or_op a b _ _ iha _ => exact WF_bitarray_or a b iha
  | xor_op a b _ _ iha _ => exact WF_bitarray_xor a b iha
  | not_op b _ ih => exact WF_bitarray_not b ih

/-! ## Heap-level API model

The C interface passes bitarrays by pointer; errors are reported with
`errno`-style indicators next to a sentinel return value.  The heap model
below (modelled from spec §6–§7) makes null references, freeing, aliasing
and frame properties expressible: a heap is a list of cells, a reference is
`Option Nat` (`none` is the C `NULL`), and a freed cell holds `none`. -/

/-- Modelled from the spec: the two error kinds of §7, `InvalidArgument`
(`EINVAL`) and `OutOfMemory` (`ENOMEM`). -/
inductive error_t where
  | invalidArgument : error_t
  | outOfMemory : error_t
  deriving Repr, DecidableEq

/-- A heap of bitarray cells; a cell holding `none` was freed or never
allocated. -/
structure heap_t where
  cells : List (Option bitarray_t)
  deriving Repr, DecidableEq

/-- Dereference: `none` is the C `NULL`; an out-of-bounds or freed cell also
yields nothing. -/
def deref (h : heap_t) (r : Option Nat) : Option bitarray_t :=
  match r with
  | none => none
  | some p => h.cells.getD p none

/-- Modelled from the spec: API-level `bitarray_construct` allocating a
fresh heap cell; `EINVAL` on size 0 returns `NULL` and leaves the heap
unchanged.  Allocation always succeeds in this model (`ENOMEM` is an
environment failure outside it). -/
def api_construct (h : heap_t) (size : Nat) : heap_t × Option Nat × Option error_t :=
  match bitarray_construct size with
  | none => (h, none, some .invalidArgument)
  | some b => (⟨h.cells ++ [some b]⟩, some h.cells.length, none)

/-- Modelled from the spec: API-level `bitarray_copy`; a null (or dangling)
reference fails with `EINVAL`, otherwise a fresh cell gets the deep copy. -/
def api_copy (h : heap_t) (r : Option Nat) : heap_t × Option Nat × Option error_t :=
  match deref h r with
  | none => (h, none, some .invalidArgument)
  | some b => (⟨h.cells ++ [some (bitarray_copy b)]⟩, some h.cells.length, none)

/-- Modelled from the spec: shared API shape of the binary operations; both
operands must dereference, the result is allocated in a fresh cell, and a
failing call leaves the heap unchanged and returns `NULL` with `EINVAL`. -/
def api_binop (core : bitarray_t → bitarray_t → bitarray_t) (h : heap_t)
    (r1 r2 : Option Nat) : heap_t × Option Nat × Option error_t :=
  match deref h r1, deref h r2 with
  | some x, some y => (⟨h.cells ++ [some (core x y)]⟩, some h.cells.length, none)
  | _, _ => (h, none, some .invalidArgument)

/-- Modelled from the spec: API-level `bitarray_not`. -/
def api_not (h : heap_t) (r : Option Nat) : heap_t × Option Nat × Option error_t :=
  match deref h r with
  | none => (h, none, some .invalidArgument)
  | some b => (⟨h.cells ++ [some (bitarray_not b)]⟩, some h.cells.length, none)

/-- Modelled from the spec: API-level `bitarray_test`; null reference or
out-of-range index fail with `EINVAL` returning the `false` sentinel. -/
def api_test (h : heap_t) (r : Option Nat) (i : Nat) : Bool × Option error_t :=
  match deref h r with
  | none => (false, some .invalidArgument)
  | some b => if i < b.size then (bitarray_test b i, none) else (false, some .invalidArgument)

/-- Modelled from the spec: API-level `bitarray_set`; a failing call (null
reference or out-of-range index) returns `false`, raises `EINVAL` and
leaves the heap — in particular the target bitarray — unchanged. -/
def api_set (h : heap_t) (r : Option Nat) (i : Nat) : heap_t × Bool × Option error_t :=
  match r with
  | none => (h, false, some .invalidArgument)
  | some p =>
    match h.cells.getD p none with
    | none => (h, false, some .invalidArgument)
    | some b =>
      if i < b.size then (⟨h.cells.set p (some (bitarray_set b i).1)⟩, true, none)
      else (h, false, some .invalidArgument)

/-- Modelled from the spec: API-level `bitarray_free`; freeing `NULL` is a
safe no-op, otherwise the cell is released. -/
def api_free (h : heap_t) (r : Option Nat) : heap_t :=
  match r with
  | none => h
  | some p => ⟨h.cells.set p none⟩

/-! ## The claims -/

/-- C1: Padding invariant — in every reachable bitarray state (produced by
construct, copy, set, reset, flip, fill, clear, and, or, xor or not), every
bit position `≥ size` and `< buckets * 8` of the backing buffer reads 0. -/
theorem C1_padding_invariant (b : bitarray_t) (h : Reachable b) :
    ∀ i, bitarray_size b ≤ i → i < 8 * bitarray_buckets b → rawBit b i = false := by
  intro i h1 h2
  exact (WF_of_reachable b h).2.2.2 i h2 h1

theorem C1_witness :
    rawBit (bitarray_fill ⟨10, [0, 0]⟩) 12 = false :=
  C1_padding_invariant _
    (Reachable.fill _ (Reachable.construct 10 _ (by decide))) 12 (by decide) (by decide)

/-- C2: for every size > 0, `bitarray_construct` succeeds with the requested
logical size, `ceil(size / 8)` buckets and every logical bit reading 0;
`bitarray_construct 0` fails (`EINVAL`, `NULL` result). -/
theorem C2_construct :
    (∀ n, 0 < n → ∃ b, bitarray_construct n = some b ∧ bitarray_size b = n ∧
      bitarray_buckets b = (n + 7) / 8 ∧ ∀ i, i < n → bitarray_test b i = false) ∧
    bitarray_construct 0 = none := by
  constructor
  · intro n hn
    refine ⟨⟨n, List.replicate (bucketsOf n) 0⟩, ?_, rfl, ?_, ?_⟩
    · have : n ≠ 0 := by omega
      simp [bitarray_construct, this]
    · simp [bitarray_buckets, bucketsOf]
    · intro i _
      simp [bitarray_test, rawBit_zero_buffer]
  · rfl

theorem C2_witness :
    ∃ b, bitarray_construct 10 = some b ∧ bitarray_size b = 10 ∧
      bitarray_buckets b = (10 + 7) / 8 ∧ ∀ i, i < 10 → bitarray_test b i = false :=
  C2_construct.1 10 (by decide)

/-- C3: for every well-formed bitarray, `bitarray_count` — the sum of the
per-byte population counts over all buckets — equals the number of logical
indices `i < size` whose bit tests as 1 (padding being 0 makes the raw
byte sum safe). -/
theorem C3_count (b : bitarray_t) (h : WF b) :
    bitarray_count b =
      (List.range (bitarray_size b)).countP (fun i => bitarray_test b i) :=
  count_spec b h

theorem C3_witness :
    WF ⟨10, [3, 2]⟩ ∧
    bitarray_count ⟨10, [3, 2]⟩ =
      (List.range (bitarray_size ⟨10, [3, 2]⟩)).countP
        (fun i => bitarray_test ⟨10, [3, 2]⟩ i) :=
  ⟨by decide, C3_count ⟨10, [3, 2]⟩ (by decide)⟩

/-- C4: and/or/xor promote to the larger operand size with the shorter
operand zero-extended: in the index gap between the two sizes AND reads 0
while OR and XOR read the longer operand's bits. -/
theorem C4_size_promotion (a b : bitarray_t) (ha : WF a) (hb : WF b) :
    bitarray_size (bitarray_and a b) = max (bitarray_size a) (bitarray_size b) ∧
    bitarray_size (bitarray_or a b) = max (bitarray_size a) (bitarray_size b) ∧
    bitarray_size (bitarray_xor a b) = max (bitarray_size a) (bitarray_size b) ∧
    ∀ i, bitarray_size a ≤ i → i < bitarray_size b →
      bitarray_test (bitarray_and a b) i = false ∧
      bitarray_test (bitarray_or a b) i = bitarray_test b i ∧
      bitarray_test (bitarray_xor a b) i = bitarray_test b i := by
  refine ⟨rfl, rfl, rfl, ?_⟩
  intro i h1 _
  have hta : bitarray_test a i = false := by
    have h1' : a.size ≤ i := h1
    simp [bitarray_test, Nat.not_lt.mpr h1']
  refine ⟨?_, ?_, ?_⟩
  · rw [bitarray_test_and a b ha hb i, hta]
    simp
  · rw [bitarray_test_or a b ha hb i, hta]
    simp
  · rw [bitarray_test_xor a b ha hb i, hta]
    simp

theorem C4_witness :
    bitarray_size (bitarray_or ⟨5, [31]⟩ ⟨12, [0, 9]⟩)
        = max (bitarray_size ⟨5, [31]⟩) (bitarray_size ⟨12, [0, 9]⟩) ∧
      bitarray_test (bitarray_or ⟨5, [31]⟩ ⟨12, [0, 9]⟩) 11
        = bitarray_test ⟨12, [0, 9]⟩ 11 := by
  have h := C4_size_promotion ⟨5, [31]⟩ ⟨12, [0, 9]⟩ (by decide) (by decide)
  exact ⟨h.2.1, (h.2.2.2 11 (by decide) (by decide)).2.1⟩

/-- C5: fill makes every logical bit 1 (`all` true, `count = size`) without
touching padding; clear zeroes everything (`none` true, `count = 0`); in
particular a filled 10-bit array has count 10, `all` true, and the six
padding positions 10..15 of its second byte read 0. -/
theorem C5_fill_clear (b : bitarray_t) (h : WF b) :
    bitarray_all (bitarray_fill b) = true ∧
    bitarray_count (bitarray_fill b) = bitarray_size b ∧
    bitarray_none (bitarray_clear b) = true ∧
    bitarray_count (bitarray_clear b) = 0 ∧
    (∀ c, bitarray_construct 10 = some c →
      bitarray_count (bitarray_fill c) = 10 ∧
      bitarray_all (bitarray_fill c) = true ∧
      ∀ i, i < 16 → 10 ≤ i → rawBit (bitarray_fill c) i = false) := by
  have hWfill : WF (bitarray_fill b) := WF_bitarray_fill b h
  have hfill_test : ∀ i, i < b.size → bitarray_test (bitarray_fill b) i = true := by
    intro i hi
    rw [test_eq_rawBit _ hWfill i, rawBit_bitarray_fill b h.2.1 i]
    simp [hi]
  refine ⟨?_, ?_, ?_, ?_, ?_⟩
  · exact (all_spec _ hWfill).mpr (fun i hi => hfill_test i hi)
  · rw [count_spec _ hWfill, show (bitarray_fill b).size = b.size from rfl]
    have hceq : List.countP (fun i => bitarray_test (bitarray_fill b) i)
        (List.range b.size) = (List.range b.size).length :=
      List.countP_eq_length.mpr (fun i hi => hfill_test i (List.mem_range.mp hi))
    rw [hceq, List.length_range]
    rfl
  · have : bitarray_any (bitarray_clear b) = false := by
      simp [bitarray_any, bitarray_clear, List.any_eq_false, List.mem_replicate]
    simp [bitarray_none, this]
  · simp [bitarray_count, bitarray_clear, List.map_replicate,
      show popcount8 0 = 0 from by decide]
  · intro c hc
    rw [show bitarray_construct 10 = some ⟨10, [0, 0]⟩ from by decide] at hc
    obtain rfl := Option.some_injective _ hc.symm
    refine ⟨by decide, by decide, by decide⟩

theorem C5_witness :
    bitarray_all (bitarray_fill ⟨10, [0, 0]⟩) = true ∧
      bitarray_count (bitarray_fill ⟨10, [0, 0]⟩) = bitarray_size ⟨10, [0, 0]⟩ ∧
      bitarray_none (bitarray_clear ⟨10, [0, 0]⟩) = true ∧
      bitarray_count (bitarray_clear ⟨10, [0, 0]⟩) = 0 := by
  have h := C5_fill_clear ⟨10, [0, 0]⟩ (by decide)
  exact ⟨h.1, h.2.1, h.2.2.1, h.2.2.2.1⟩

/-- C6: single-bit mutation is frame-preserving — for `i < size`, set then
test is true, reset then test is false, flipping twice restores the bit at
`i`, and in every case every physical bit at a position other than `i`
(padding included) is unchanged. -/
theorem C6_single_bit (b : bitarray_t) (i : Nat) (h : WF b) (hi : i < bitarray_size b) :
    bitarray_test (bitarray_set b i).1 i = true ∧
    bitarray_test (bitarray_reset b i).1 i = false ∧
    bitarray_test (bitarray_flip (bitarray_flip b i).1 i).1 i = bitarray_test b i ∧
    ∀ p, p ≠ i →
      rawBit (bitarray_set b i).1 p = rawBit b p ∧
      rawBit (bitarray_reset b i).1 p = rawBit b p ∧
      rawBit (bitarray_flip b i).1 p = rawBit b p ∧
      rawBit (bitarray_flip (bitarray_flip b i).1 i).1 p = rawBit b p := by
  have h2 := h.2.1
  have hW1 : WF (bitarray_flip b i).1 := WF_bitarray_flip b i h
  have hs1 : (bitarray_flip b i).1.size = b.size := by
    rw [fst_bitarray_flip b i hi]
  have hi1 : i < (bitarray_flip b i).1.size := by rw [hs1]; exact hi
  refine ⟨?_, ?_, ?_, ?_⟩
  · rw [test_eq_rawBit _ (WF_bitarray_set b i h) i, rawBit_bitarray_set b i h2 hi i]
    simp
  · rw [test_eq_rawBit _ (WF_bitarray_reset b i h) i, rawBit_bitarray_reset b i h2 hi i]
    simp
  · rw [test_eq_rawBit _ (WF_bitarray_flip _ i hW1) i,
      rawBit_bitarray_flip _ i hW1.2.1 hi1 i,
      rawBit_bitarray_flip b i h2 hi i, test_eq_rawBit b h i]
    simp
  · intro p hp
    refine ⟨?_, ?_, ?_, ?_⟩
    · rw [rawBit_bitarray_set b i h2 hi p]
      simp [hp]
    · rw [rawBit_bitarray_reset b i h2 hi p]
      simp [hp]
    · rw [rawBit_bitarray_flip b i h2 hi p]
      simp [hp]
    · rw [rawBit_bitarray_flip _ i hW1.2.1 hi1 p, rawBit_bitarray_flip b i h2 hi p]
      simp [hp]

theorem C6_witness :
    bitarray_test (bitarray_set ⟨10, [3, 2]⟩ 4).1 4 = true ∧
      bitarray_test (bitarray_reset ⟨10, [3, 2]⟩ 4).1 4 = false ∧
      bitarray_test (bitarray_flip (bitarray_flip ⟨10, [3, 2]⟩ 4).1 4).1 4
        = bitarray_test ⟨10, [3, 2]⟩ 4 ∧
      rawBit (bitarray_set ⟨10, [3, 2]⟩ 4).1 9 = rawBit ⟨10, [3, 2]⟩ 9 := by
  have h := C6_single_bit ⟨10, [3, 2]⟩ 4 (by decide) (by decide)
  exact ⟨h.1, h.2.1, h.2.2.1, (h.2.2.2 9 (by decide)).1⟩

/-- C7 counterexample: the De Morgan clause fails as stated for operands of
unequal size.  With `a = construct 1` and `b = construct 2` (both all-zero),
at index 1 — inside the larger size 2 — `not(or(a,b))` reads 1 while
`and(not a, not b)` reads 0, because `not a` has no bit 1 to contribute to
the AND. -/
theorem C7_counterexample :
    bitarray_construct 1 = some ⟨1, [0]⟩ ∧
    bitarray_construct 2 = some ⟨2, [0]⟩ ∧
    bitarray_test (bitarray_not (bitarray_or ⟨1, [0]⟩ ⟨2, [0]⟩)) 1 = true ∧
    bitarray_test (bitarray_and (bitarray_not ⟨1, [0]⟩) (bitarray_not ⟨2, [0]⟩)) 1
      = false := by
  decide

/-- C7 (amended): for well-formed bitarrays, and/or are idempotent on the
bit pattern, xor with itself is all-zero of the same size, double negation
restores the bit pattern, and De Morgan `not(or(a,b)) = and(not a, not b)`
holds compared over the SMALLER of the two operand sizes (hence over the
whole range when the sizes are equal) — not over the larger, where it
fails. -/
theorem C7_algebraic (a b : bitarray_t) (ha : WF a) (hb : WF b) :
    (bitarray_size (bitarray_and b b) = bitarray_size b ∧
      ∀ i, bitarray_test (bitarray_and b b) i = bitarray_test b i) ∧
    (bitarray_size (bitarray_or b b) = bitarray_size b ∧
      ∀ i, bitarray_test (bitarray_or b b) i = bitarray_test b i) ∧
    (bitarray_size (bitarray_xor b b) = bitarray_size b ∧
      ∀ i, bitarray_test (bitarray_xor b b) i = false) ∧
    (bitarray_size (bitarray_not (bitarray_not b)) = bitarray_size b ∧
      ∀ i, bitarray_test (bitarray_not (bitarray_not b)) i = bitarray_test b i) ∧
    ∀ i, i < min (bitarray_size a) (bitarray_size b) →
      bitarray_test (bitarray_not (bitarray_or a b)) i
        = bitarray_test (bitarray_and (bitarray_not a) (bitarray_not b)) i := by
  refine ⟨⟨Nat.max_self b.size, ?_⟩, ⟨Nat.max_self b.size, ?_⟩,
    ⟨Nat.max_self b.size, ?_⟩, ⟨rfl, ?_⟩, ?_⟩
  · intro i
    rw [bitarray_test_and b b hb hb i]
    simp
  · intro i
    rw [bitarray_test_or b b hb hb i]
    simp
  · intro i
    rw [bitarray_test_xor b b hb hb i]
    simp
  · intro i
    rw [bitarray_test_not _ (WF_bitarray_not b hb) i, bitarray_test_not b hb i,
      show (bitarray_not b).size = b.size from rfl]
    rcases Nat.lt_or_ge i b.size with hi | hi
    · simp [hi]
    · simp [bitarray_test, Nat.not_lt.mpr hi]
  · intro i hi
    obtain ⟨hia, hib⟩ := Nat.lt_min.mp hi
    have hia' : i < a.size := hia
    have hib' : i < b.size := hib
    have him : i < max a.size b.size := Nat.lt_of_lt_of_le hia' (Nat.le_max_left _ _)
    rw [bitarray_test_not _ (WF_bitarray_or a b ha) i, bitarray_test_or a b ha hb i,
      bitarray_test_and _ _ (WF_bitarray_not a ha) (WF_bitarray_not b hb) i,
      bitarray_test_not a ha i, bitarray_test_not b hb i,
      show (bitarray_or a b).size = max a.size b.size from rfl]
    simp [him, hia', hib']

theorem C7_witness :
    bitarray_size (bitarray_xor ⟨10, [3, 2]⟩ ⟨10, [3, 2]⟩) = bitarray_size ⟨10, [3, 2]⟩ ∧
      bitarray_test (bitarray_not (bitarray_not ⟨10, [3, 2]⟩)) 1
        = bitarray_test ⟨10, [3, 2]⟩ 1 ∧
      bitarray_test (bitarray_not (bitarray_or ⟨5, [31]⟩ ⟨10, [3, 2]⟩)) 3
        = bitarray_test (bitarray_and (bitarray_not ⟨5, [31]⟩) (bitarray_not ⟨10, [3, 2]⟩)) 3 := by
  have h := C7_algebraic ⟨5, [31]⟩ ⟨10, [3, 2]⟩ (by decide) (by decide)
  exact ⟨h.2.2.1.1, h.2.2.2.1.2 1, h.2.2.2.2 3 (by decide)⟩

/-- C9: query semantics relative to the padding invariant — `any` is true
iff some bucket byte is nonzero, which under the invariant coincides with
some logical bit being 1; `all` is true iff every logical bit is 1 (final
partial byte compared against the valid-position mask); `none` is the
negation of `any`. -/
theorem C9_queries (b : bitarray_t) (h : WF b) :
    (bitarray_any b = true ↔ ∃ x ∈ b.data, x ≠ 0) ∧
    (bitarray_any b = true ↔ ∃ i, i < bitarray_size b ∧ bitarray_test b i = true) ∧
    (bitarray_all b = true ↔ ∀ i, i < bitarray_size b → bitarray_test b i = true) ∧
    bitarray_none b = !bitarray_any b := by
  refine ⟨?_, any_spec b h, all_spec b h, rfl⟩
  rw [bitarray_any, List.any_eq_true]
  constructor
  · rintro ⟨x, hx, hxe⟩
    exact ⟨x, hx, by simpa using hxe⟩
  · rintro ⟨x, hx, hxe⟩
    exact ⟨x, hx, by simpa using hxe⟩

theorem C9_witness :
    bitarray_any ⟨10, [3, 2]⟩ = true ∧
      bitarray_none ⟨10, [3, 2]⟩ = !bitarray_any ⟨10, [3, 2]⟩ := by
  have h := C9_queries ⟨10, [3, 2]⟩ (by decide)
  exact ⟨h.2.1.mpr ⟨0, by decide, by decide⟩, h.2.2.2⟩

/-- C8: error signalling is exhaustive and atomic — the only error kinds
are InvalidArgument and OutOfMemory; a null reference or out-of-range index
fails with InvalidArgument returning the documented false/NULL sentinel and
leaves the heap (all existing inputs) unchanged; construct of size 0 fails
the same way; `free(NULL)` is a safe no-op. -/
theorem C8_errors :
    (∀ e : error_t, e = error_t.invalidArgument ∨ e = error_t.outOfMemory) ∧
    (∀ h : heap_t, ∀ i, api_test h none i = (false, some error_t.invalidArgument)) ∧
    (∀ (h : heap_t) r i, (api_test h r i).2 ≠ none → (api_test h r i).1 = false) ∧
    (∀ (h : heap_t) r i, (api_set h r i).2.2 ≠ none →
      (api_set h r i).1 = h ∧ (api_set h r i).2.1 = false) ∧
    (∀ h : heap_t, api_construct h 0 = (h, none, some error_t.invalidArgument)) ∧
    (∀ core (h : heap_t) r2,
      api_binop core h none r2 = (h, none, some error_t.invalidArgument)) ∧
    (∀ core (h : heap_t) r1,
      api_binop core h r1 none = (h, none, some error_t.invalidArgument)) ∧
    (∀ h : heap_t, api_free h none = h) := by
  refine ⟨?_, ?_, ?_, ?_, ?_, ?_, ?_, ?_⟩
  · intro e
    cases e
    · exact Or.inl rfl
    · exact Or.inr rfl
  · intro h i
    rfl
  · intro h r i
    unfold api_test
    cases deref h r with
    | none => intro _; rfl
    | some b => by_cases hi : i < b.size <;> simp [hi]
  · intro h r i
    cases r with
    | none => intro _; exact ⟨rfl, rfl⟩
    | some p =>
      simp only [api_set]
      split
      · intro _; exact ⟨rfl, rfl⟩
      · split
        · intro hc; exact absurd rfl hc
        · intro _; exact ⟨rfl, rfl⟩
  · intro h
    rfl
  · intro core h r2
    unfold api_binop
    cases deref h r2 <;> rfl
  · intro core h r1
    unfold api_binop
    cases deref h r1 <;> rfl
  · intro h
    rfl

theorem C8_witness :
    (api_test ⟨[]⟩ none 0).2 ≠ none ∧ (api_test ⟨[]⟩ none 0).1 = false ∧
      (api_set ⟨[some ⟨2, [1]⟩]⟩ (some 0) 5).1 = ⟨[some ⟨2, [1]⟩]⟩ ∧
      api_free ⟨[]⟩ none = ⟨[]⟩ := by
  have h := C8_errors
  exact ⟨by decide, h.2.2.1 ⟨[]⟩ none 0 (by decide),
    (h.2.2.2.1 ⟨[some ⟨2, [1]⟩]⟩ (some 0) 5 (by decide)).1,
    h.2.2.2.2.2.2.2 ⟨[]⟩⟩

theorem getD_append_lt (l l2 : List (Option bitarray_t)) (k : Nat)
    (hk : k < l.length) : (l ++ l2).getD k none = l.getD k none := by
  simp [List.getD_eq_getElem?_getD, List.getElem?_append_left hk]

theorem getD_append_self (l : List (Option bitarray_t)) (x : Option bitarray_t) :
    (l ++ [x]).getD l.length none = x := by
  simp [List.getD_eq_getElem?_getD, List.getElem?_append_right (Nat.le_refl _)]

theorem api_set_eq (h : heap_t) (p : Nat) (b : bitarray_t) (i : Nat)
    (hb : h.cells.getD p none = some b) :
    api_set h (some p) i =
      if i < b.size then (⟨h.cells.set p (some (bitarray_set b i).1)⟩, true, none)
      else (h, false, some error_t.invalidArgument) := by
  have hdef : api_set h (some p) i = match h.cells.getD p none with
      | none => (h, false, some error_t.invalidArgument)
      | some b =>
        if i < b.size then (⟨h.cells.set p (some (bitarray_set b i).1)⟩, true, none)
        else (h, false, some error_t.invalidArgument) := rfl
  rw [hdef, hb]

/-- C10: binary operations do not mutate their operands and copy is an
independent deep copy — and/or/xor/not leave every existing heap cell
unchanged; at the value level the copy has identical size and bit contents;
and mutating the freshly allocated copy leaves the source cell holding its
original value. -/
theorem C10_no_mutation (h : heap_t) :
    (∀ core r1 r2 k, k < h.cells.length →
      ((api_binop core h r1 r2).1).cells.getD k none = h.cells.getD k none) ∧
    (∀ r k, k < h.cells.length →
      ((api_copy h r).1).cells.getD k none = h.cells.getD k none) ∧
    (∀ r k, k < h.cells.length →
      ((api_not h r).1).cells.getD k none = h.cells.getD k none) ∧
    (∀ b, bitarray_size (bitarray_copy b) = bitarray_size b ∧
      ∀ i, bitarray_test (bitarray_copy b) i = bitarray_test b i) ∧
    (∀ p b, h.cells.getD p none = some b →
      (api_copy h (some p)).2.1 = some h.cells.length ∧
      ((api_copy h (some p)).1).cells.getD h.cells.length none
        = some (bitarray_copy b) ∧
      ∀ j, ((api_set (api_copy h (some p)).1 (some h.cells.length) j).1).cells.getD p none
        = some b) := by
  refine ⟨?_, ?_, ?_, ?_, ?_⟩
  · intro core r1 r2 k hk
    unfold api_binop
    cases deref h r1 with
    | none => cases deref h r2 <;> rfl
    | some x =>
      cases deref h r2 with
      | none => rfl
      | some y => exact getD_append_lt _ _ k hk
  · intro r k hk
    unfold api_copy
    cases deref h r with
    | none => rfl
    | some b => exact getD_append_lt _ _ k hk
  · intro r k hk
    unfold api_not
    cases deref h r with
    | none => rfl
    | some b => exact getD_append_lt _ _ k hk
  · intro b
    exact ⟨rfl, fun i => rfl⟩
  · intro p b hb
    have hp : p < h.cells.length := by
      by_contra hp
      rw [List.getD_eq_getElem?_getD, List.getElem?_eq_none (by omega)] at hb
      simp at hb
    have hcopy : api_copy h (some p)
        = (⟨h.cells ++ [some (bitarray_copy b)]⟩, some h.cells.length, none) := by
      unfold api_copy
      rw [show deref h (some p) = some b from hb]
    refine ⟨by rw [hcopy], ?_, ?_⟩
    · rw [hcopy]
      exact getD_append_self _ _
    · intro j
      rw [hcopy]
      have hcell : (h.cells ++ [some (bitarray_copy b)]).getD h.cells.length none
          = some (bitarray_copy b) := getD_append_self _ _
      rw [api_set_eq ⟨h.cells ++ [some (bitarray_copy b)]⟩ h.cells.length
        (bitarray_copy b) j hcell]
      by_cases hj : j < (bitarray_copy b).size
      · rw [if_pos hj]
        have hne : h.cells.length ≠ p := by omega
        calc ((h.cells ++ [some (bitarray_copy b)]).set h.cells.length
                (some (bitarray_set (bitarray_copy b) j).1)).getD p none
            = (h.cells ++ [some (bitarray_copy b)]).getD p none := by
              simp [List.getD_eq_getElem?_getD, List.getElem?_set_ne hne,
                List.getElem?_append_left hp]
          _ = h.cells.getD p none := getD_append_lt _ _ p hp
          _ = some b := hb
      · rw [if_neg hj]
        calc (h.cells ++ [some (bitarray_copy b)]).getD p none
            = h.cells.getD p none := getD_append_lt _ _ p hp
          _ = some b := hb

theorem C10_witness :
    ((api_binop bitarray_and ⟨[some ⟨2, [1]⟩]⟩ (some 0) (some 0)).1).cells.getD 0 none
        = (⟨[some ⟨2, [1]⟩]⟩ : heap_t).cells.getD 0 none ∧
      ((api_set (api_copy ⟨[some ⟨2, [1]⟩]⟩ (some 0)).1 (some 1) 0).1).cells.getD 0 none
        = some ⟨2, [1]⟩ := by
  have h := C10_no_mutation ⟨[some ⟨2, [1]⟩]⟩
  exact ⟨h.1 bitarray_and (some 0) (some 0) 0 (by decide),
    (h.2.2.2.2 0 ⟨2, [1]⟩ (by decide)).2.2 0⟩

end Structures
